import Mathlib

/-!
Verification of dl4m.py (jamesliu/awesome-deep-learning-music).

The Python source is shallowly embedded: each Python function becomes a Lean
definition of the same name, dictionaries (bibtexparser entries) become
association lists, file contents become strings (lists of lines for the
README rewriter, which iterates over lines), and crashing operations
(KeyError, AssertionError) become Except/Option results.
-/

namespace DL4M

/-- Python substring test `needle in haystack`, on character lists:
true iff `needle` occurs contiguously inside `haystack`
(the empty needle occurs in everything). -/
def strIn (needle : List Char) : List Char → Bool
  | [] => needle.isEmpty
  | c :: rest => needle.isPrefixOf (c :: rest) || strIn needle rest

/-- Python `needle in haystack` on strings. -/
def containsStr (haystack needle : String) : Bool :=
  strIn needle.data haystack.data

/-- A bibtexparser entry: a dictionary from field names to string values,
modelled as an association list (first binding wins, as dict keys are unique). -/
abbrev Record : Type := List (String × String)

/-- Python `entry[k]` / `k in entry`: look the key up in the dictionary. -/
def Record.get (r : Record) (k : String) : Option String :=
  (List.find? (fun p => p.1 == k) r).map (fun p => p.2)

/-- Python `entry.get(k, d)`. -/
def Record.getD (r : Record) (k : String) (d : String) : String :=
  (Record.get r k).getD d

/-- The fragments spliced into README.md by `generate_summary_table`
(dl4m.py lines 149-154): the five stringified counts and the articles table. -/
structure Fragments where
  nb_articles : String
  nb_authors : String
  nb_tasks : String
  nb_datasets : String
  nb_archi : String
  articles : String

/-- dl4m.py line 161: `"| " in line[:2] and line[2] != " "`.
Since `line[:2]` has length at most two, the membership test holds exactly
when the first two characters are `"| "`; the third character must then
differ from a space.  (On a two-character line `"| "` Python would raise
IndexError; lines produced by file iteration always carry their newline,
so such a line cannot occur and the model returns false there.) -/
def isTableAnchor (line : String) : Bool :=
  match line.data with
  | c1 :: c2 :: c3 :: _ => c1 == '|' && c2 == ' ' && c3 != ' '
  | _ => false

/-- dl4m.py lines 166-167: replacement for a line containing "papers referenced". -/
def papersLine (n : String) : String :=
  "- " ++ n ++ " papers referenced. " ++ "See the details in [dl4m.bib](dl4m.bib).\n"

/-- dl4m.py lines 169-170: replacement for a line containing "unique researchers". -/
def researchersLine (n : String) : String :=
  "- " ++ n ++ " unique researchers. " ++ "See the list of [authors](authors.md).\n"

/-- dl4m.py lines 172-173: replacement for a line containing "tasks investigated". -/
def tasksLine (n : String) : String :=
  "- " ++ n ++ " tasks investigated. " ++ "See the list of [tasks](tasks.md).\n"

/-- dl4m.py lines 175-176: replacement for a line containing "datasets used". -/
def datasetsLine (n : String) : String :=
  "- " ++ n ++ " datasets used. " ++ "See the list of [datasets](datasets.md).\n"

/-- dl4m.py lines 178-179: replacement for a line containing "architecture used". -/
def archiLine (n : String) : String :=
  "- " ++ n ++ " architectures used. " ++ "See the list of [architectures](architectures.md).\n"

/-- One iteration of the `for line in filep` loop of `generate_summary_table`
(dl4m.py lines 160-181): given the one-shot `pasted_articles` flag and the
current line, return the text appended to `readme` and the new flag. -/
def processLine (f : Fragments) (pasted : Bool) (line : String) : String × Bool :=
  if isTableAnchor line then
    (if pasted then "" else f.articles, true)
  else if containsStr line "papers referenced" then
    (papersLine f.nb_articles, pasted)
  else if containsStr line "unique researchers" then
    (researchersLine f.nb_authors, pasted)
  else if containsStr line "tasks investigated" then
    (tasksLine f.nb_tasks, pasted)
  else if containsStr line "datasets used" then
    (datasetsLine f.nb_datasets, pasted)
  else if containsStr line "architecture used" then
    (archiLine f.nb_archi, pasted)
  else
    (line, pasted)

/-- The whole line loop of `generate_summary_table`, threading the
`pasted_articles` flag through the lines. -/
def generateReadmeAux (f : Fragments) : Bool → List String → String
  | _, [] => ""
  | pasted, line :: rest =>
    let step := processLine f pasted line
    step.1 ++ generateReadmeAux f step.2 rest

/-- dl4m.py lines 156-183: rewrite README.md.  The input document is given
as its list of lines (each line carrying its trailing newline, as produced
by Python file iteration); the result is the full new file content. -/
def generate_summary_table (f : Fragments) (lines : List String) : String :=
  generateReadmeAux f false lines

/-- Replace the articles fragment, keeping the five counts: used to state
that a part of a run never reads the articles fragment. -/
def setArticles (f : Fragments) (s : String) : Fragments :=
  ⟨f.nb_articles, f.nb_authors, f.nb_tasks, f.nb_datasets, f.nb_archi, s⟩

/-- dl4m.py lines 191-192: the whitelist of valid field names.
Note the last entry is the upper-case bibtexparser key "ENTRYTYPE". -/
def fields : List String :=
  ["task", "dataset", "architecture", "author", "dataaugmentation",
   "link", "title", "year", "journal", "ENTRYTYPE"]

/-- dl4m.py lines 193-194: the AssertionError message of `validate_field`. -/
def invalidFieldMsg (field_name : String) : String :=
  "Invalid field provided: " ++ field_name ++ ". " ++
  "Valid fields: " ++ "[" ++ String.intercalate ", " fields ++ "]"

/-- dl4m.py lines 187-195: `validate_field`.  The Python assert either
passes (modelled as `ok`) or raises AssertionError with the message built
on lines 193-194 (modelled as `error`). -/
def validate_field (field_name : String) : Except String Unit :=
  if field_name ∈ fields then Except.ok ()
  else Except.error (invalidFieldMsg field_name)

/-- dl4m.py lines 205-209: the `fields` accumulator of `get_field` — for
each entry holding the field, every piece of the split on " & " is
appended, in entry order. -/
def collectFields : List Record → String → List String
  | [], _ => []
  | e :: rest, field_name =>
    (match e.get field_name with
     | some v => v.splitOn " & "
     | none => []) ++ collectFields rest field_name

/-- dl4m.py lines 203, 210-211: the `nb_article_missing` counter of
`get_field` — incremented once per entry lacking the field. -/
def missingCount : List Record → String → Nat
  | [], _ => 0
  | e :: rest, field_name =>
    (if (e.get field_name).isNone then 1 else 0) + missingCount rest field_name

/-- Insert a string into a strictly sorted list, dropping it when already
present: the building block of Python `sorted(set(xs))`. -/
def insertSorted (x : String) : List String → List String
  | [] => [x]
  | y :: ys =>
    if x < y then x :: y :: ys
    else if x = y then y :: ys
    else y :: insertSorted x ys

/-- Python `sorted(set(xs))`: the deduplicated, lexicographically sorted
list of the elements of `xs` (dl4m.py line 221 and line 103). -/
def sortedUnique (xs : List String) : List String :=
  xs.foldr insertSorted []

/-- The observable outcome of one `get_field` call: the returned
`nb_fields` (dl4m.py line 213, `len(set(fields))`), the printed
`nb_article_missing`, and the sorted unique listing written to
`<field_name>s.md` (line 221). -/
structure FieldReport where
  nb_fields : Nat
  nb_article_missing : Nat
  listing : List String

/-- dl4m.py lines 198-225: `get_field`.  Validates the field name (a
failing assert aborts with the error), collects the " & "-split values,
and reports the number of distinct values together with the sorted unique
listing and the missing-entry count. -/
def get_field (bib : List Record) (field_name : String) : Except String FieldReport :=
  match validate_field field_name with
  | Except.error msg => Except.error msg
  | Except.ok _ =>
    let collected := collectFields bib field_name
    Except.ok ⟨(sortedUnique collected).length, missingCount bib field_name,
               sortedUnique collected⟩

/-- dl4m.py lines 99-102: the author accumulation loop of `get_authors`.
`entry['author']` raises KeyError when the field is missing, modelled as
`error`; otherwise the value is split on " and " and all parts kept. -/
def collectAuthors : List Record → Except String (List String)
  | [] => Except.ok []
  | e :: rest =>
    match e.get "author" with
    | none => Except.error "KeyError: author"
    | some v =>
      match collectAuthors rest with
      | Except.error msg => Except.error msg
      | Except.ok tail => Except.ok (v.splitOn " and " ++ tail)

/-- dl4m.py lines 95-114: `get_authors`.  Returns the author count
`nb_authors = len(sorted(set(authors)))` and the sorted unique list
written to authors.md. -/
def get_authors (bib : List Record) : Except String (Nat × List String) :=
  match collectAuthors bib with
  | Except.error msg => Except.error msg
  | Except.ok authors =>
    let sorted := sortedUnique authors
    Except.ok (sorted.length, sorted)

/-- dl4m.py lines 87-92: `get_nb_articles` returns `len(bib)`. -/
def get_nb_articles (bib : List Record) : Nat := bib.length

/-- dl4m.py lines 129-139: the code-availability cell of one table row. -/
def codeCell (code : Option String) : String :=
  match code with
  | some c =>
    if containsStr c "No" then "No "
    else if containsStr c "github" then "[GitHub]" ++ "(" ++ c ++ ") "
    else "[Website]" ++ "(" ++ c ++ ") "
  | none => "No "

/-- dl4m.py lines 123-140: the text contributed by one entry — the empty
string when the entry has no title, one table row otherwise. -/
def entryRow (e : Record) : String :=
  match e.get "title" with
  | none => ""
  | some title =>
    (match e.get "link" with
     | some link => "| [" ++ title ++ "](" ++ link ++ ") | "
     | none => "| " ++ title ++ " | ") ++
    codeCell (e.get "code") ++ "|\n"

/-- dl4m.py lines 117-142: `generate_list_articles`. -/
def generate_list_articles : List Record → String
  | [] => ""
  | e :: rest => entryRow e ++ generate_list_articles rest

/-- Decimal value of a digit string, accumulated left to right; `none` on
any non-digit character. -/
def digitsValAux : Nat → List Char → Option Nat
  | acc, [] => some acc
  | acc, c :: rest =>
    if c.isDigit then digitsValAux (acc * 10 + (c.toNat - '0'.toNat)) rest else none

/-- Python `int(s)` for the forms a bib year field can take: an optional
minus sign followed by one or more decimal digits (`none` — a Python
ValueError — otherwise; Python also strips surrounding whitespace, which
bibtexparser field values do not carry). -/
def parseInt (s : String) : Option Int :=
  match s.data with
  | [] => none
  | '-' :: rest =>
    if rest.isEmpty then none else (digitsValAux 0 rest).map (fun n => -(n : Int))
  | l => (digitsValAux 0 l).map (fun n => (n : Int))

/-- dl4m.py line 70: `int(entry['year'])` for every entry; `none` when an
entry lacks the field or its value is not an integer literal. -/
def getYears : List Record → Option (List Int)
  | [] => some []
  | e :: rest =>
    match (e.get "year").bind parseInt with
    | none => none
    | some y =>
      match getYears rest with
      | none => none
      | some ys => some (y :: ys)

/-- dl4m.py line 75: `np.arange(min(years), max(years) + 2.0, 1.0)` — the
consecutive integers from `lo` up to `hi + 1` inclusive. -/
def yearEdges (lo hi : Int) : List Int :=
  (List.range (hi + 2 - lo).toNat).map (fun (i : Nat) => lo + (i : Int))

/-- The histogram counts matplotlib computes from `plt.hist(years, bins)`
(dl4m.py line 76): one count per consecutive pair of bin edges, each bin
half-open except the last, which is closed. -/
def binCounts (years : List Int) : List Int → List Nat
  | a :: b :: [] => [years.countP (fun y => a ≤ y && y ≤ b)]
  | a :: b :: c :: rest =>
    years.countP (fun y => a ≤ y && y < b) :: binCounts years (b :: c :: rest)
  | _ => []

/-- dl4m.py lines 63-84: `articles_per_year` hands the plotting sink the
years and the bin edges; the resulting histogram pairs the edges with the
per-bin counts.  `none` when a year is missing/non-integer (Python raises)
or the collection is empty (`min([])` raises). -/
def articles_per_year (bib : List Record) : Option (List Int × List Nat) :=
  match getYears bib with
  | some (y :: ys) =>
    let lo := ys.foldl min y
    let hi := ys.foldl max y
    some (yearEdges lo hi, binCounts (y :: ys) (yearEdges lo hi))
  | _ => none

/-- Modelled from the spec: the sort key bibtexparser's writer uses under
`writer.order_entries_by = ('noneyear', "author")` (dl4m.py line 38) — the
values of the named fields, the empty string when absent, compared
lexicographically as a pair. -/
def entryKey (e : Record) : String × String :=
  (e.getD "noneyear" "", e.getD "author" "")

/-- Lexicographic comparison of the two-string sort keys, as a boolean. -/
def keyLE (k1 k2 : String × String) : Bool :=
  decide (k1.1 < k2.1) || (k1.1 == k2.1 && decide (k1.2 ≤ k2.2))

/-- Stable insertion of an entry into an already key-sorted database:
the entry goes before the first strictly-greater-or-equal position, so
entries with equal keys keep their original relative order. -/
def insertEntry (e : Record) : List Record → List Record
  | [] => [e]
  | y :: ys => if keyLE (entryKey e) (entryKey y) then e :: y :: ys else y :: insertEntry e ys

/-- Modelled from the spec: the canonical entry order imposed by the
writer — a stable sort of the entries by `entryKey`. -/
def sortEntries : List Record → List Record
  | [] => []
  | e :: rest => insertEntry e (sortEntries rest)

/-- The line opening one serialized entry in the modelled format. -/
def markerLine : List Char := '@' :: 'e' :: 'n' :: 't' :: 'r' :: 'y' :: []

/-- Modelled from the spec: one serialized field line, with the writer's
fixed two-space indentation (dl4m.py line 37, `writer.indent = '  '`):
two spaces, the key, an equals sign, the value. -/
def fieldLine (kv : String × String) : List Char :=
  ' ' :: ' ' :: (kv.1.data ++ '=' :: kv.2.data)

/-- The serialized lines of one entry: its marker line then its field lines. -/
def entryBlock (e : Record) : List (List Char) :=
  markerLine :: e.map fieldLine

/-- The serialized lines of a whole database, in the order given. -/
def dbLines (db : List Record) : List (List Char) :=
  (db.map entryBlock).flatten

/-- Join lines with newline separators. -/
def joinLines : List (List Char) → List Char
  | [] => []
  | [l] => l
  | l :: l2 :: ls => l ++ '\n' :: joinLines (l2 :: ls)

/-- Prepend a character to the first line of a line list. -/
def consHead (c : Char) : List (List Char) → List (List Char)
  | [] => [[c]]
  | l :: ls => (c :: l) :: ls

/-- Split a character stream at every newline (Python-style: the result
always has one more line than there are newlines). -/
def splitLines : List Char → List (List Char)
  | [] => [[]]
  | c :: rest =>
    if c = '\n' then [] :: splitLines rest
    else consHead c (splitLines rest)

/-- Split a line body at its first equals sign, `none` when there is none. -/
def splitEq : List Char → Option (List Char × List Char)
  | [] => none
  | c :: rest =>
    if c = '=' then some ([], rest)
    else (splitEq rest).map (fun p => (c :: p.1, p.2))

/-- Recognize and decompose one serialized field line: two spaces of
indentation, then a key, an equals sign and a value. -/
def parseFieldLine (l : List Char) : Option (String × String) :=
  match l with
  | c1 :: c2 :: body =>
    if c1 = ' ' ∧ c2 = ' ' then
      (splitEq body).map (fun p => (String.mk p.1, String.mk p.2))
    else none
  | _ => none

/-- Modelled from the spec: the parser's line loop.  The state holds the
fields of the entry being built (`none` before the first marker line); a
marker line commits the current entry and opens a fresh one, a field line
extends the current entry, anything else is ignored. -/
def parseAux : Option Record → List (List Char) → List Record
  | none, [] => []
  | some cur, [] => [cur]
  | none, l :: rest =>
    if l = markerLine then parseAux (some []) rest else parseAux none rest
  | some cur, l :: rest =>
    if l = markerLine then cur :: parseAux (some []) rest
    else
      match parseFieldLine l with
      | some kv => parseAux (some (cur ++ [kv])) rest
      | none => parseAux (some cur) rest

/-- Modelled from the spec: `bibtexparser.loads` for the modelled canonical
format (dl4m.py line 49) — split the text into lines and run the line loop. -/
def bib_loads (x : String) : List Record :=
  parseAux none (splitLines x.data)

/-- Modelled from the spec: `write_bib` (dl4m.py lines 32-40) — serialize
the entries in canonical order (stable sort by `entryKey`) with the fixed
indentation. -/
def write_bib (db : List Record) : String :=
  String.mk (joinLines (dbLines (sortEntries db)))

/-- dl4m.py lines 43-50: `read_bib` parses the file content. -/
def read_bib (content : String) : List Record :=
  bib_loads content

/-- dl4m.py lines 53-60: `load_bib` — read, write back, read again.  The
first component is the new on-disk content, the second the returned
entries. -/
def load_bib (content : String) : String × List Record :=
  let disk := write_bib (read_bib content)
  (disk, read_bib disk)

/-- Well-formedness of one entry for the modelled serializer: keys carry
no newline and no equals sign, values carry no newline. -/
def wfEntry (e : Record) : Prop :=
  ∀ kv ∈ e, '\n' ∉ kv.1.data ∧ '=' ∉ kv.1.data ∧ '\n' ∉ kv.2.data

/-- Well-formedness of a database for the modelled serializer.  Every
database the modelled parser produces satisfies it. -/
def wfDB (db : List Record) : Prop :=
  ∀ e ∈ db, wfEntry e

/-! Lemmas about the substring test. -/

lemma strIn_append_right (p t : List Char) (h : strIn p t = true) :
    ∀ s : List Char, strIn p (s ++ t) = true := by
  intro s
  induction s with
  | nil => simpa using h
  | cons c s ih =>
    simp only [List.cons_append, strIn, Bool.or_eq_true]
    exact Or.inr ih

lemma strIn_cons_ne (q0 : Char) (q : List Char) (c : Char) (l : List Char) (h : q0 ≠ c) :
    strIn (q0 :: q) (c :: l) = strIn (q0 :: q) l := by
  simp only [strIn, List.isPrefixOf, Bool.or_eq_true]
  simp [h]

/-! Lemmas about the README line loop. -/

lemma processLine_snd (f : Fragments) (p : Bool) (l : String) :
    (processLine f p l).2 = (p || isTableAnchor l) := by
  unfold processLine
  by_cases h : isTableAnchor l <;> simp [h]
  split_ifs <;> rfl

lemma generateReadmeAux_cons (f : Fragments) (p : Bool) (l : String) (rest : List String) :
    generateReadmeAux f p (l :: rest) =
      (processLine f p l).1 ++ generateReadmeAux f (processLine f p l).2 rest := rfl

lemma generateReadmeAux_append (f : Fragments) (a b : List String) :
    ∀ p, generateReadmeAux f p (a ++ b) =
      generateReadmeAux f p a ++ generateReadmeAux f (p || a.any isTableAnchor) b := by
  induction a with
  | nil => intro p; simp [generateReadmeAux]
  | cons l a ih =>
    intro p
    simp only [List.cons_append, generateReadmeAux_cons, List.any_cons]
    rw [ih, processLine_snd, String.append_assoc, Bool.or_assoc]

lemma generateReadmeAux_true_articles (f : Fragments) (s : String) (ls : List String) :
    generateReadmeAux (setArticles f s) true ls = generateReadmeAux f true ls := by
  induction ls with
  | nil => rfl
  | cons l rest ih =>
    simp only [generateReadmeAux_cons, processLine_snd, Bool.true_or, ih]
    have hfst : (processLine (setArticles f s) true l).1 = (processLine f true l).1 := by
      unfold processLine setArticles
      split_ifs <;> simp_all
    rw [hfst]

lemma strIn_digits_append (p0 : Char) (p : List Char) (h0 : p0.isDigit = false)
    (d : List Char) (hd : ∀ c ∈ d, c.isDigit = true) (t : List Char) :
    strIn (p0 :: p) (d ++ t) = strIn (p0 :: p) t := by
  induction d with
  | nil => rfl
  | cons c d ih =>
    have hc : p0 ≠ c := by
      intro h
      rw [h, hd c (by simp)] at h0
      cases h0
    simp only [List.cons_append]
    rw [strIn_cons_ne _ _ _ _ hc, ih (fun x hx => hd x (by simp [hx]))]

/-! The claims about the README updater. -/

/-- C1 (amended): in one run of the document updater, each line that
contains the anchor substring "papers referenced" AND is not recognized as
the article-table anchor is replaced by the line holding the new count
followed by "papers referenced." and the link to dl4m.bib, and each line
matching none of the six anchor patterns is copied through byte-identical;
a line that satisfies the table-anchor test is handled by the table branch
even when it contains "papers referenced". -/
theorem C1_papers_line_replaced (f : Fragments) (pasted : Bool) (line : String)
    (rest : List String) :
    (isTableAnchor line = false → containsStr line "papers referenced" = true →
      generateReadmeAux f pasted (line :: rest) =
        papersLine f.nb_articles ++ generateReadmeAux f pasted rest) ∧
    (isTableAnchor line = false →
     containsStr line "papers referenced" = false →
     containsStr line "unique researchers" = false →
     containsStr line "tasks investigated" = false →
     containsStr line "datasets used" = false →
     containsStr line "architecture used" = false →
      generateReadmeAux f pasted (line :: rest) =
        line ++ generateReadmeAux f pasted rest) := by
  constructor
  · intro h1 h2
    rw [generateReadmeAux_cons]
    unfold processLine
    simp [h1, h2]
  · intro h1 h2 h3 h4 h5 h6
    rw [generateReadmeAux_cons]
    unfold processLine
    simp [h1, h2, h3, h4, h5, h6]

theorem C1_papers_line_replaced_witness :
    (generateReadmeAux ⟨"15", "2", "3", "4", "5", "ART\n"⟩ false
        ("- 10 papers referenced. See details.\n" :: ["hello\n"]) =
      papersLine "15" ++
        generateReadmeAux ⟨"15", "2", "3", "4", "5", "ART\n"⟩ false ["hello\n"]) ∧
    (generateReadmeAux ⟨"15", "2", "3", "4", "5", "ART\n"⟩ false ("hello\n" :: []) =
      "hello\n" ++ generateReadmeAux ⟨"15", "2", "3", "4", "5", "ART\n"⟩ false []) :=
  ⟨(C1_papers_line_replaced ⟨"15", "2", "3", "4", "5", "ART\n"⟩ false
      "- 10 papers referenced. See details.\n" ["hello\n"]).1 (by decide) (by decide),
   (C1_papers_line_replaced ⟨"15", "2", "3", "4", "5", "ART\n"⟩ false "hello\n" []).2
      (by decide) (by decide) (by decide) (by decide) (by decide) (by decide)⟩

/-- C1 counterexample: the line "| 10 papers referenced\n" contains the
anchor substring "papers referenced", yet one run of the updater does not
replace it with a count line: the table-anchor test fires first and the
line is replaced by the articles fragment, which contains neither the
anchor phrase nor the new count. -/
theorem C1_counterexample :
    containsStr "| 10 papers referenced\n" "papers referenced" = true ∧
    isTableAnchor "| 10 papers referenced\n" = true ∧
    generate_summary_table ⟨"15", "2", "3", "4", "5", "ARTICLES\n"⟩
        ["| 10 papers referenced\n"] = "ARTICLES\n" ∧
    containsStr "ARTICLES\n" "papers referenced" = false := by
  exact ⟨by decide, by decide, by decide, by decide⟩

/-- C2: a line is recognized as the article-table anchor exactly when its
first two characters are "| " and its third character is not a space; the
articles fragment is spliced in place of the first such line; and the rest
of the run never reads the articles fragment again (the output after the
first splice is unchanged under any replacement of the fragment). -/
theorem C2_table_anchor_once (f : Fragments) (line : String) (pre post : List String) :
    (isTableAnchor line = true ↔
      ∃ c rest, line.data = '|' :: ' ' :: c :: rest ∧ c ≠ ' ') ∧
    ((∀ l ∈ pre, isTableAnchor l = false) → isTableAnchor line = true →
      generate_summary_table f (pre ++ line :: post) =
        generate_summary_table f pre ++ (f.articles ++ generateReadmeAux f true post)) ∧
    (∀ s : String,
      generateReadmeAux (setArticles f s) true post = generateReadmeAux f true post) := by
  refine ⟨?_, ?_, fun s => generateReadmeAux_true_articles f s post⟩
  · cases hd : line.data with
    | nil => simp [isTableAnchor, hd]
    | cons c1 t1 =>
      cases t1 with
      | nil => simp [isTableAnchor, hd]
      | cons c2 t2 =>
        cases t2 with
        | nil => simp [isTableAnchor, hd]
        | cons c3 t3 =>
          simp only [isTableAnchor, hd, Bool.and_eq_true, beq_iff_eq, bne_iff_ne, ne_eq]
          constructor
          · rintro ⟨⟨h1, h2⟩, h3⟩
            exact ⟨c3, t3, by rw [h1, h2], h3⟩
          · rintro ⟨c, rest, heq, hne⟩
            obtain ⟨e1, e2, e3, -⟩ : c1 = '|' ∧ c2 = ' ' ∧ c3 = c ∧ t3 = rest := by
              simpa using heq
            exact ⟨⟨e1, e2⟩, by rw [e3]; exact hne⟩
  · intro hpre hanchor
    unfold generate_summary_table
    rw [generateReadmeAux_append]
    have hany : pre.any isTableAnchor = false := by
      simp only [List.any_eq_false]
      intro l hl
      simp [hpre l hl]
    rw [hany]
    simp only [Bool.or_self]
    congr 1
    rw [generateReadmeAux_cons]
    have h1 : (processLine f false line).1 = f.articles := by
      unfold processLine
      simp [hanchor]
    have h2 : (processLine f false line).2 = true := by
      rw [processLine_snd, hanchor]
      rfl
    rw [h1, h2]

theorem C2_table_anchor_once_witness :
    generate_summary_table ⟨"1", "2", "3", "4", "5", "ART\n"⟩
        (["intro\n"] ++ "| :---: |\n" :: ["tail\n"]) =
      generate_summary_table ⟨"1", "2", "3", "4", "5", "ART\n"⟩ ["intro\n"] ++
        ("ART\n" ++ generateReadmeAux ⟨"1", "2", "3", "4", "5", "ART\n"⟩ true ["tail\n"]) :=
  (C2_table_anchor_once ⟨"1", "2", "3", "4", "5", "ART\n"⟩ "| :---: |\n"
      ["intro\n"] ["tail\n"]).2.1 (by decide) (by decide)

/-- C10: in one run, a table-anchor line that comes after an earlier
table-anchor line contributes nothing to the output: deleting it from the
input document leaves the output unchanged, so pre-existing table rows
after the first are dropped rather than preserved. -/
theorem C10_later_anchor_lines_omitted (f : Fragments) (l1 l2 : List String)
    (line : String) (hseen : l1.any isTableAnchor = true)
    (hanchor : isTableAnchor line = true) :
    generate_summary_table f (l1 ++ line :: l2) = generate_summary_table f (l1 ++ l2) := by
  unfold generate_summary_table
  rw [generateReadmeAux_append, generateReadmeAux_append, hseen]
  simp only [Bool.or_true]
  congr 1
  rw [generateReadmeAux_cons]
  have h1 : (processLine f true line).1 = "" := by
    unfold processLine
    simp [hanchor]
  have h2 : (processLine f true line).2 = true := by
    rw [processLine_snd]
    rfl
  rw [h1, h2, String.empty_append]

theorem C10_later_anchor_lines_omitted_witness :
    generate_summary_table ⟨"1", "2", "3", "4", "5", "ART\n"⟩
        (["| a |\n"] ++ "| b |\n" :: ["x\n"]) =
      generate_summary_table ⟨"1", "2", "3", "4", "5", "ART\n"⟩ (["| a |\n"] ++ ["x\n"]) :=
  C10_later_anchor_lines_omitted ⟨"1", "2", "3", "4", "5", "ART\n"⟩
    ["| a |\n"] ["x\n"] "| b |\n" (by decide) (by decide)

/-- C3 (amended): for four of the five count anchors — "papers referenced",
"unique researchers", "tasks investigated", "datasets used" — the
replacement line contains the literal anchor substring that triggered it,
so a re-run matches the same line again; the replacement for the fifth
anchor "architecture used" reads "...architectures used." and does NOT
contain its anchor substring, so a re-run would not match it (counts are
decimal digit strings). -/
theorem C3_anchor_reproduction (n : String) (hn : ∀ c ∈ n.data, c.isDigit = true) :
    containsStr (papersLine n) "papers referenced" = true ∧
    containsStr (researchersLine n) "unique researchers" = true ∧
    containsStr (tasksLine n) "tasks investigated" = true ∧
    containsStr (datasetsLine n) "datasets used" = true ∧
    containsStr (archiLine n) "architecture used" = false := by
  refine ⟨?_, ?_, ?_, ?_, ?_⟩
  · unfold containsStr papersLine
    rw [String.data_append, String.data_append, String.data_append,
        List.append_assoc, List.append_assoc]
    exact strIn_append_right _ _ (strIn_append_right _ _ (by decide) _) _
  · unfold containsStr researchersLine
    rw [String.data_append, String.data_append, String.data_append,
        List.append_assoc, List.append_assoc]
    exact strIn_append_right _ _ (strIn_append_right _ _ (by decide) _) _
  · unfold containsStr tasksLine
    rw [String.data_append, String.data_append, String.data_append,
        List.append_assoc, List.append_assoc]
    exact strIn_append_right _ _ (strIn_append_right _ _ (by decide) _) _
  · unfold containsStr datasetsLine
    rw [String.data_append, String.data_append, String.data_append,
        List.append_assoc, List.append_assoc]
    exact strIn_append_right _ _ (strIn_append_right _ _ (by decide) _) _
  · unfold containsStr archiLine
    rw [String.data_append, String.data_append, String.data_append,
        List.append_assoc, List.append_assoc]
    show strIn ('a' :: "rchitecture used".data)
        ('-' :: ' ' :: (n.data ++
          (" architectures used. ".data ++
           "See the list of [architectures](architectures.md).\n".data))) = false
    rw [strIn_cons_ne _ _ _ _ (by decide), strIn_cons_ne _ _ _ _ (by decide),
        strIn_digits_append 'a' _ (by decide) n.data hn _]
    decide

theorem C3_anchor_reproduction_witness :
    containsStr (papersLine "15") "papers referenced" = true ∧
    containsStr (researchersLine "15") "unique researchers" = true ∧
    containsStr (tasksLine "15") "tasks investigated" = true ∧
    containsStr (datasetsLine "15") "datasets used" = true ∧
    containsStr (archiLine "15") "architecture used" = false :=
  C3_anchor_reproduction "15" (by decide)

/-- C3 counterexample: on a line triggered by the "architecture used"
anchor the updater generates the replacement line
"- 5 architectures used. ..." which does not contain the literal anchor
substring "architecture used", so the claim fails for this anchor. -/
theorem C3_counterexample :
    (processLine ⟨"9", "9", "9", "9", "5", "ART\n"⟩ false "- 4 architecture used.\n").1 =
      archiLine "5" ∧
    containsStr "- 4 architecture used.\n" "architecture used" = true ∧
    archiLine "5" =
      "- 5 architectures used. See the list of [architectures](architectures.md).\n" ∧
    containsStr
      "- 5 architectures used. See the list of [architectures](architectures.md).\n"
      "architecture used" = false := by
  exact ⟨by decide, by decide, by decide, by decide⟩

/-- C4 (amended): `validate_field` accepts exactly the ten strings
{task, dataset, architecture, author, dataaugmentation, link, title,
year, journal, ENTRYTYPE} — the tenth is the upper-case bibtexparser key
"ENTRYTYPE", not "entryType" — and fails for every other string with the
AssertionError message listing the valid set. -/
theorem C4_validate_field (field_name : String) :
    (validate_field field_name = Except.ok () ↔
      field_name ∈ ["task", "dataset", "architecture", "author", "dataaugmentation",
                    "link", "title", "year", "journal", "ENTRYTYPE"]) ∧
    (field_name ∉ ["task", "dataset", "architecture", "author", "dataaugmentation",
                   "link", "title", "year", "journal", "ENTRYTYPE"] →
      validate_field field_name = Except.error (invalidFieldMsg field_name)) := by
  have hfields : fields = ["task", "dataset", "architecture", "author", "dataaugmentation",
      "link", "title", "year", "journal", "ENTRYTYPE"] := rfl
  constructor
  · unfold validate_field
    rw [hfields]
    by_cases h : field_name ∈ ["task", "dataset", "architecture", "author",
        "dataaugmentation", "link", "title", "year", "journal", "ENTRYTYPE"] <;>
      simp [h]
  · intro h
    unfold validate_field
    rw [hfields]
    simp [h]

theorem C4_validate_field_witness :
    validate_field "foo" = Except.error (invalidFieldMsg "foo") :=
  (C4_validate_field "foo").2 (by decide)

/-- C4 counterexample: the string "entryType" named by the claim is
rejected by `validate_field`, while the string it actually accepts as the
tenth field name is the upper-case "ENTRYTYPE". -/
theorem C4_counterexample :
    validate_field "entryType" = Except.error (invalidFieldMsg "entryType") ∧
    validate_field "ENTRYTYPE" = Except.ok () := by
  exact ⟨rfl, rfl⟩

/-- C5: `generate_list_articles` emits one row per record that has a
title (a record lacking a title contributes nothing and no error), the
code cell is decided by substring tests in this order — a value containing
"No" yields "No ", otherwise a value containing "github" yields a GitHub
link, otherwise a Website link, and an absent code yields "No " — and on
the three-record example the output is exactly the claimed string. -/
theorem C5_generate_list_articles :
    (∀ e : Record, e.get "title" = none → entryRow e = "") ∧
    (∀ c : String, containsStr c "No" = true → codeCell (some c) = "No ") ∧
    (∀ c : String, containsStr c "No" = false → containsStr c "github" = true →
      codeCell (some c) = "[GitHub]" ++ "(" ++ c ++ ") ") ∧
    (∀ c : String, containsStr c "No" = false → containsStr c "github" = false →
      codeCell (some c) = "[Website]" ++ "(" ++ c ++ ") ") ∧
    codeCell none = "No " ∧
    generate_list_articles
        [[("title", "A"), ("link", "u"), ("code", "No")],
         [("title", "B"), ("code", "github.com/x")],
         [("title", "C")]] =
      "| [A](u) | No |\n| B | [GitHub](github.com/x) |\n| C | No |\n" := by
  refine ⟨?_, ?_, ?_, ?_, rfl, by decide⟩
  · intro e he
    unfold entryRow
    rw [he]
  · intro c h
    unfold codeCell
    simp [h]
  · intro c h1 h2
    unfold codeCell
    simp [h1, h2]
  · intro c h1 h2
    unfold codeCell
    simp [h1, h2]

theorem C5_generate_list_articles_witness :
    entryRow [("link", "u")] = "" ∧
    codeCell (some "No") = "No " ∧
    codeCell (some "github.com/x") = "[GitHub]" ++ "(" ++ "github.com/x" ++ ") " ∧
    codeCell (some "example.org") = "[Website]" ++ "(" ++ "example.org" ++ ") " :=
  ⟨C5_generate_list_articles.1 [("link", "u")] (by decide),
   C5_generate_list_articles.2.1 "No" (by decide),
   C5_generate_list_articles.2.2.1 "github.com/x" (by decide) (by decide),
   C5_generate_list_articles.2.2.2.1 "example.org" (by decide) (by decide)⟩

/-! Lemmas about `sorted(set(...))` and the field extractor. -/

lemma mem_insertSorted (a x : String) : ∀ l, a ∈ insertSorted x l ↔ a = x ∨ a ∈ l := by
  intro l
  induction l with
  | nil => simp [insertSorted]
  | cons y ys ih =>
    unfold insertSorted
    split_ifs with h1 h2
    · simp
    · subst h2
      simp only [List.mem_cons]
      tauto
    · simp only [List.mem_cons, ih]
      tauto

lemma pairwise_insertSorted (x : String) :
    ∀ l, l.Pairwise (· < ·) → (insertSorted x l).Pairwise (· < ·) := by
  intro l
  induction l with
  | nil => intro _; simp [insertSorted]
  | cons y ys ih =>
    intro hp
    rw [List.pairwise_cons] at hp
    obtain ⟨hy, hys⟩ := hp
    unfold insertSorted
    split_ifs with h1 h2
    · rw [List.pairwise_cons]
      refine ⟨fun b hb => ?_, by rw [List.pairwise_cons]; exact ⟨hy, hys⟩⟩
      rcases List.mem_cons.mp hb with rfl | hb'
      · exact h1
      · exact lt_trans h1 (hy b hb')
    · rw [List.pairwise_cons]
      exact ⟨hy, hys⟩
    · have hyx : y < x := by
        rcases lt_trichotomy x y with h | h | h
        · exact absurd h h1
        · exact absurd h h2
        · exact h
      rw [List.pairwise_cons]
      refine ⟨fun b hb => ?_, ih hys⟩
      rcases (mem_insertSorted b x ys).mp hb with rfl | hb'
      · exact hyx
      · exact hy b hb'

lemma sortedUnique_pairwise (xs : List String) : (sortedUnique xs).Pairwise (· < ·) := by
  induction xs with
  | nil => simp [sortedUnique]
  | cons x xs ih => exact pairwise_insertSorted x _ ih

lemma mem_sortedUnique (a : String) (xs : List String) : a ∈ sortedUnique xs ↔ a ∈ xs := by
  induction xs with
  | nil => simp [sortedUnique]
  | cons x xs ih =>
    show a ∈ insertSorted x (sortedUnique xs) ↔ _
    rw [mem_insertSorted a x (sortedUnique xs)]
    simp [ih]

lemma collectFields_eq (bib : List Record) (fn : String) :
    collectFields bib fn =
      (bib.filterMap (fun e => e.get fn)).flatMap (fun v => v.splitOn " & ") := by
  induction bib with
  | nil => rfl
  | cons e rest ih =>
    unfold collectFields
    cases he : e.get fn <;> simp [List.filterMap_cons, he, ih]

lemma missingCount_eq (bib : List Record) (fn : String) :
    missingCount bib fn = bib.countP (fun e => (e.get fn).isNone) := by
  induction bib with
  | nil => rfl
  | cons e rest ih =>
    unfold missingCount
    rw [ih, List.countP_cons]
    cases he : e.get fn
    all_goals simp [he]
    all_goals omega

/-- C6: for every record collection and valid field name, `get_field`
splits each present value on the literal " & " (the collected values are
exactly the concatenated splits, untrimmed and uncased), counts as missing
exactly the records lacking the field, and returns a listing that is
strictly lexicographically increasing, has exactly the collected values as
members, and whose length is the returned unique count. -/
theorem C6_get_field (bib : List Record) (field_name : String)
    (h : field_name ∈ fields) :
    ∃ r : FieldReport, get_field bib field_name = Except.ok r ∧
      r.listing = sortedUnique (collectFields bib field_name) ∧
      collectFields bib field_name =
        (bib.filterMap (fun e => e.get field_name)).flatMap (fun v => v.splitOn " & ") ∧
      r.nb_article_missing = bib.countP (fun e => (e.get field_name).isNone) ∧
      r.listing.Pairwise (· < ·) ∧
      (∀ v : String, v ∈ r.listing ↔ v ∈ collectFields bib field_name) ∧
      r.nb_fields = r.listing.length := by
  have hv : validate_field field_name = Except.ok () := by
    unfold validate_field
    simp [h]
  refine ⟨⟨(sortedUnique (collectFields bib field_name)).length,
           missingCount bib field_name,
           sortedUnique (collectFields bib field_name)⟩,
          ?_, rfl, collectFields_eq bib field_name, missingCount_eq bib field_name,
          sortedUnique_pairwise _, fun v => mem_sortedUnique v _, rfl⟩
  unfold get_field
  rw [hv]

theorem C6_get_field_witness :
    ∃ r : FieldReport,
      get_field [[("task", "a & b")], [("dataset", "x")]] "task" = Except.ok r ∧
      r.listing = sortedUnique (collectFields [[("task", "a & b")], [("dataset", "x")]] "task") ∧
      collectFields [[("task", "a & b")], [("dataset", "x")]] "task" =
        (([[("task", "a & b")], [("dataset", "x")]] :
            List Record).filterMap (fun e => e.get "task")).flatMap
          (fun v => v.splitOn " & ") ∧
      r.nb_article_missing =
        ([[("task", "a & b")], [("dataset", "x")]] :
            List Record).countP (fun e => (e.get "task").isNone) ∧
      r.listing.Pairwise (· < ·) ∧
      (∀ v : String, v ∈ r.listing ↔
        v ∈ collectFields [[("task", "a & b")], [("dataset", "x")]] "task") ∧
      r.nb_fields = r.listing.length :=
  C6_get_field [[("task", "a & b")], [("dataset", "x")]] "task" (by decide)

/-! Lemmas about the year histogram. -/

lemma foldl_min_le_init (l : List Int) : ∀ a : Int, l.foldl min a ≤ a := by
  induction l with
  | nil => intro a; simp
  | cons c l ih =>
    intro a
    simp only [List.foldl_cons]
    exact le_trans (ih (min a c)) (min_le_left a c)

lemma foldl_min_le_mem (l : List Int) : ∀ a x : Int, x ∈ l → l.foldl min a ≤ x := by
  induction l with
  | nil => intro a x hx; cases hx
  | cons c l ih =>
    intro a x hx
    simp only [List.foldl_cons]
    rcases List.mem_cons.mp hx with rfl | hx'
    · exact le_trans (foldl_min_le_init l (min a x)) (min_le_right a x)
    · exact ih (min a c) x hx'

lemma le_foldl_max_init (l : List Int) : ∀ a : Int, a ≤ l.foldl max a := by
  induction l with
  | nil => intro a; simp
  | cons c l ih =>
    intro a
    simp only [List.foldl_cons]
    exact le_trans (le_max_left a c) (ih (max a c))

lemma le_foldl_max_mem (l : List Int) : ∀ a x : Int, x ∈ l → x ≤ l.foldl max a := by
  induction l with
  | nil => intro a x hx; cases hx
  | cons c l ih =>
    intro a x hx
    simp only [List.foldl_cons]
    rcases List.mem_cons.mp hx with rfl | hx'
    · exact le_trans (le_max_right a x) (le_foldl_max_init l (max a x))
    · exact ih (max a c) x hx'

lemma yearEdges_cons (lo hi : Int) (h : lo ≤ hi + 1) :
    yearEdges lo hi = lo :: yearEdges (lo + 1) hi := by
  unfold yearEdges
  have h2 : (hi + 2 - lo).toNat = (hi + 2 - (lo + 1)).toNat + 1 := by omega
  rw [h2, List.range_succ_eq_map, List.map_cons, List.map_map]
  congr 1
  · simp
  · apply List.map_congr_left
    intro i _
    simp only [Function.comp_apply, Nat.succ_eq_add_one]
    push_cast
    ring

lemma yearEdges_self (lo : Int) : yearEdges lo lo = [lo, lo + 1] := by
  unfold yearEdges
  have h2 : (lo + 2 - lo).toNat = 2 := by omega
  rw [h2]
  simp [List.range_succ]

lemma binCounts_spec (years : List Int) (k : Nat) :
    ∀ lo : Int, (∀ y ∈ years, y ≤ lo + (k : Int)) →
      binCounts years (yearEdges lo (lo + (k : Int))) =
        (List.range (k + 1)).map (fun (i : Nat) => years.countP (fun y => y == lo + (i : Int))) := by
  induction k with
  | zero =>
    intro lo hb
    simp only [Nat.cast_zero, add_zero] at hb ⊢
    rw [yearEdges_self lo, show List.range 1 = [0] from rfl]
    show [years.countP (fun y => lo ≤ y && y ≤ lo + 1)] = _
    simp only [List.map_cons, List.map_nil, Nat.cast_zero, add_zero]
    congr 1
    apply List.countP_congr
    intro y hy
    have hyb := hb y hy
    simp only [Bool.and_eq_true, decide_eq_true_eq, beq_iff_eq]
    omega
  | succ k ih =>
    intro lo hb
    have h1 : yearEdges lo (lo + ((k + 1 : Nat) : Int)) =
        lo :: yearEdges (lo + 1) (lo + ((k + 1 : Nat) : Int)) :=
      yearEdges_cons _ _ (by push_cast; omega)
    have h2 : yearEdges (lo + 1) (lo + ((k + 1 : Nat) : Int)) =
        (lo + 1) :: yearEdges (lo + 1 + 1) (lo + ((k + 1 : Nat) : Int)) :=
      yearEdges_cons _ _ (by push_cast; omega)
    have h3 : yearEdges (lo + 1 + 1) (lo + ((k + 1 : Nat) : Int)) =
        (lo + 1 + 1) :: yearEdges (lo + 1 + 1 + 1) (lo + ((k + 1 : Nat) : Int)) :=
      yearEdges_cons _ _ (by push_cast; omega)
    rw [h1, h2, h3]
    show years.countP (fun y => lo ≤ y && y < lo + 1) ::
        binCounts years ((lo + 1) :: (lo + 1 + 1) ::
          yearEdges (lo + 1 + 1 + 1) (lo + ((k + 1 : Nat) : Int))) = _
    rw [← h3, ← h2]
    have hcast : lo + ((k + 1 : Nat) : Int) = (lo + 1) + (k : Int) := by push_cast; ring
    rw [hcast, ih (lo + 1) (fun y hy => by have := hb y hy; push_cast at this ⊢; omega)]
    rw [List.range_succ_eq_map (k + 1), List.map_cons, List.map_map]
    congr 1
    · apply List.countP_congr
      intro y hy
      simp only [Bool.and_eq_true, decide_eq_true_eq, beq_iff_eq, Nat.cast_zero, add_zero]
      omega
    · apply List.map_congr_left
      intro i _
      simp only [Function.comp_apply, Nat.succ_eq_add_one]
      have : lo + ((i + 1 : Nat) : Int) = (lo + 1) + (i : Int) := by push_cast; ring
      simp only [this]

/-- C7: when every record has an integer year and there is at least one
record, `articles_per_year` hands the plotting sink the edges of
unit-width, left-aligned bins — the consecutive integers from min(years)
to max(years)+1 — and the resulting counts put every year value
min+i into bin i; in particular on years [2015, 2015, 2017] the sink gets
edges [2015, 2016, 2017, 2018] with counts [2, 0, 1]. -/
theorem C7_articles_per_year (bib : List Record) (y : Int) (ys : List Int)
    (h : getYears bib = some (y :: ys)) :
    ∃ lo hi : Int, lo = ys.foldl min y ∧ hi = ys.foldl max y ∧
      articles_per_year bib =
        some (yearEdges lo hi, binCounts (y :: ys) (yearEdges lo hi)) ∧
      (∀ x ∈ y :: ys, lo ≤ x ∧ x ≤ hi) ∧
      (yearEdges lo hi).length = (hi + 2 - lo).toNat ∧
      (∀ i, (hi2 : i < (yearEdges lo hi).length) →
        (yearEdges lo hi)[i] = lo + (i : Int)) ∧
      binCounts (y :: ys) (yearEdges lo hi) =
        (List.range ((hi - lo).toNat + 1)).map
          (fun (i : Nat) => (y :: ys).countP (fun x => x == lo + (i : Int))) ∧
      articles_per_year [[("year", "2015")], [("year", "2015")], [("year", "2017")]] =
        some ([2015, 2016, 2017, 2018], [2, 0, 1]) := by
  have hmin : ∀ x ∈ y :: ys, ys.foldl min y ≤ x := by
    intro x hx
    rcases List.mem_cons.mp hx with rfl | hx'
    · exact foldl_min_le_init ys x
    · exact foldl_min_le_mem ys y x hx'
  have hmax : ∀ x ∈ y :: ys, x ≤ ys.foldl max y := by
    intro x hx
    rcases List.mem_cons.mp hx with rfl | hx'
    · exact le_foldl_max_init ys x
    · exact le_foldl_max_mem ys y x hx'
  refine ⟨ys.foldl min y, ys.foldl max y, rfl, rfl, ?_, fun x hx => ⟨hmin x hx, hmax x hx⟩,
          by simp [yearEdges], ?_, ?_, by decide⟩
  · unfold articles_per_year
    rw [h]
  · intro i hi2
    simp [yearEdges]
  · have hlohi : ys.foldl min y ≤ ys.foldl max y :=
      le_trans (foldl_min_le_init ys y) (le_foldl_max_init ys y)
    have hk2 : ys.foldl max y =
        ys.foldl min y + (((ys.foldl max y - ys.foldl min y).toNat : Nat) : Int) := by omega
    rw [hk2]
    have hshrink : ((ys.foldl min y +
        ((ys.foldl max y - ys.foldl min y).toNat : Int)) - ys.foldl min y).toNat =
        (ys.foldl max y - ys.foldl min y).toNat := by omega
    rw [hshrink]
    exact binCounts_spec (y :: ys) (ys.foldl max y - ys.foldl min y).toNat (ys.foldl min y)
      (fun x hx => by have := hmax x hx; omega)

theorem C7_articles_per_year_witness :
    ∃ lo hi : Int, lo = [2015, 2017].foldl min 2015 ∧ hi = [2015, 2017].foldl max 2015 ∧
      articles_per_year [[("year", "2015")], [("year", "2015")], [("year", "2017")]] =
        some (yearEdges lo hi, binCounts (2015 :: [2015, 2017]) (yearEdges lo hi)) ∧
      (∀ x ∈ (2015 : Int) :: [2015, 2017], lo ≤ x ∧ x ≤ hi) ∧
      (yearEdges lo hi).length = (hi + 2 - lo).toNat ∧
      (∀ i, (hi2 : i < (yearEdges lo hi).length) →
        (yearEdges lo hi)[i] = lo + (i : Int)) ∧
      binCounts (2015 :: [2015, 2017]) (yearEdges lo hi) =
        (List.range ((hi - lo).toNat + 1)).map
          (fun (i : Nat) => ((2015 : Int) :: [2015, 2017]).countP (fun x => x == lo + (i : Int))) ∧
      articles_per_year [[("year", "2015")], [("year", "2015")], [("year", "2017")]] =
        some ([2015, 2016, 2017, 2018], [2, 0, 1]) :=
  C7_articles_per_year [[("year", "2015")], [("year", "2015")], [("year", "2017")]]
    2015 [2015, 2017] (by decide)

/-! Lemmas about the author extractor. -/

lemma collectAuthors_missing : ∀ bib : List Record, (∃ e ∈ bib, e.get "author" = none) →
    collectAuthors bib = Except.error "KeyError: author" := by
  intro bib
  induction bib with
  | nil => rintro ⟨e, he, -⟩; cases he
  | cons e rest ih =>
    rintro ⟨e', he', hnone⟩
    unfold collectAuthors
    cases hget : e.get "author" with
    | none => rfl
    | some v =>
      rcases List.mem_cons.mp he' with rfl | hmem
      · rw [hget] at hnone; cases hnone
      · rw [ih ⟨e', hmem, hnone⟩]

lemma collectAuthors_total : ∀ bib : List Record, (∀ e ∈ bib, (e.get "author").isSome) →
    ∃ l, collectAuthors bib = Except.ok l := by
  intro bib
  induction bib with
  | nil => intro _; exact ⟨[], rfl⟩
  | cons e rest ih =>
    intro h
    obtain ⟨l, hl⟩ := ih (fun e' he' => h e' (List.mem_cons_of_mem e he'))
    have hsome := h e (List.mem_cons_self e rest)
    cases hget : e.get "author" with
    | none => rw [hget] at hsome; cases hsome
    | some v =>
      refine ⟨v.splitOn " and " ++ l, ?_⟩
      unfold collectAuthors
      rw [hget, hl]

/-- C8: `get_authors` fails (the unconditional `entry['author']` access
raises KeyError) on every collection containing a record that lacks the
author field, and succeeds on every collection in which all records carry
one. -/
theorem C8_get_authors (bib : List Record) :
    ((∃ e ∈ bib, e.get "author" = none) →
      get_authors bib = Except.error "KeyError: author") ∧
    ((∀ e ∈ bib, (e.get "author").isSome) →
      ∃ res, get_authors bib = Except.ok res) := by
  constructor
  · intro h
    unfold get_authors
    rw [collectAuthors_missing bib h]
  · intro h
    obtain ⟨l, hl⟩ := collectAuthors_total bib h
    refine ⟨((sortedUnique l).length, sortedUnique l), ?_⟩
    unfold get_authors
    rw [hl]

theorem C8_get_authors_witness :
    (get_authors [[("author", "Al"), ("title", "T1")], [("title", "T2")]] =
      Except.error "KeyError: author") ∧
    (∃ res, get_authors [[("author", "Al and Bo")], [("author", "Al")]] =
      Except.ok res) :=
  ⟨(C8_get_authors [[("author", "Al"), ("title", "T1")], [("title", "T2")]]).1
      ⟨[("title", "T2")], by simp, by decide⟩,
   (C8_get_authors [[("author", "Al and Bo")], [("author", "Al")]]).2 (by decide)⟩

/-! Lemmas about the modelled serializer: splitting a field line. -/

lemma splitEq_append (k v : List Char) (hk : '=' ∉ k) :
    splitEq (k ++ '=' :: v) = some (k, v) := by
  induction k with
  | nil => simp [splitEq]
  | cons c k ih =>
    have hc : ¬ c = '=' := fun h => hk (by rw [h]; exact List.mem_cons_self _ _)
    simp only [List.cons_append, splitEq, if_neg hc, List.append_eq]
    rw [ih (fun h => hk (List.mem_cons_of_mem c h))]
    rfl

lemma splitEq_eq (l : List Char) : ∀ k v, splitEq l = some (k, v) → l = k ++ '=' :: v := by
  induction l with
  | nil => intro k v h; cases h
  | cons c rest ih =>
    intro k v h
    simp only [splitEq] at h
    split_ifs at h with hc
    · simp only [Option.some.injEq, Prod.mk.injEq] at h
      obtain ⟨rfl, rfl⟩ := h
      rw [hc]
      rfl
    · rw [Option.map_eq_some'] at h
      obtain ⟨p, hp, hf⟩ := h
      simp only [Prod.mk.injEq] at hf
      obtain ⟨rfl, rfl⟩ := hf
      rw [ih p.1 p.2 hp]
      rfl

lemma splitEq_key (l : List Char) : ∀ k v, splitEq l = some (k, v) → '=' ∉ k := by
  induction l with
  | nil => intro k v h; cases h
  | cons c rest ih =>
    intro k v h
    simp only [splitEq] at h
    split_ifs at h with hc
    · simp only [Option.some.injEq, Prod.mk.injEq] at h
      obtain ⟨rfl, rfl⟩ := h
      simp
    · rw [Option.map_eq_some'] at h
      obtain ⟨p, hp, hf⟩ := h
      simp only [Prod.mk.injEq] at hf
      obtain ⟨rfl, rfl⟩ := hf
      intro hmem
      rcases List.mem_cons.mp hmem with heq | hmem'
      · exact hc heq.symm
      · exact ih p.1 p.2 hp hmem'

/-! Lemmas about splitting and joining lines. -/

lemma splitLines_no_newline : ∀ x : List Char, ∀ l ∈ splitLines x, '\n' ∉ l := by
  intro x
  induction x with
  | nil =>
    intro l hl
    rcases List.mem_singleton.mp hl with rfl
    simp
  | cons c rest ih =>
    intro l hl
    simp only [splitLines] at hl
    split_ifs at hl with hc
    · rcases List.mem_cons.mp hl with rfl | hmem
      · simp
      · exact ih l hmem
    · cases hrec : splitLines rest with
      | nil =>
        rw [hrec] at hl
        simp only [consHead, List.mem_singleton] at hl
        subst hl
        intro hbad
        rcases List.mem_singleton.mp hbad with rfl
        exact hc rfl
      | cons l0 ls =>
        rw [hrec] at hl
        simp only [consHead] at hl
        rcases List.mem_cons.mp hl with rfl | hmem
        · intro hbad
          rcases List.mem_cons.mp hbad with heq | hmem0
          · exact hc heq.symm
          · exact ih l0 (hrec ▸ List.mem_cons_self l0 ls) hmem0
        · exact ih l (hrec ▸ List.mem_cons_of_mem l0 hmem)

lemma splitLines_single (l : List Char) (h : '\n' ∉ l) : splitLines l = [l] := by
  induction l with
  | nil => rfl
  | cons c rest ih =>
    have hc : ¬ c = '\n' := fun hq => h (by rw [hq]; exact List.mem_cons_self _ _)
    simp only [splitLines, if_neg hc]
    rw [ih (fun hm => h (List.mem_cons_of_mem c hm))]
    rfl

lemma splitLines_append (l : List Char) (h : '\n' ∉ l) :
    ∀ rest, splitLines (l ++ '\n' :: rest) = l :: splitLines rest := by
  induction l with
  | nil => intro rest; simp [splitLines]
  | cons c l ih =>
    intro rest
    have hc : ¬ c = '\n' := fun hq => h (by rw [hq]; exact List.mem_cons_self _ _)
    simp only [List.cons_append, splitLines, if_neg hc, List.append_eq]
    rw [ih (fun hm => h (List.mem_cons_of_mem c hm)) rest]
    rfl

lemma splitLines_joinLines : ∀ ls : List (List Char), (∀ l ∈ ls, '\n' ∉ l) → ls ≠ [] →
    splitLines (joinLines ls) = ls := by
  intro ls
  induction ls with
  | nil => intro _ h; exact absurd rfl h
  | cons l ls ih =>
    intro h1 _
    cases ls with
    | nil => exact splitLines_single l (h1 l (List.mem_cons_self _ _))
    | cons l2 ls2 =>
      show splitLines (l ++ '\n' :: joinLines (l2 :: ls2)) = _
      rw [splitLines_append l (h1 l (List.mem_cons_self _ _)),
          ih (fun x hx => h1 x (List.mem_cons_of_mem l hx)) (by simp)]

/-! Lemmas about the modelled parser's line loop. -/

lemma fieldLine_ne_marker (kv : String × String) : ¬ fieldLine kv = markerLine := by
  intro h
  have := congrArg (fun l => l.headD ' ') h
  simp [fieldLine, markerLine] at this

lemma parseFieldLine_fieldLine (kv : String × String) (hk : '=' ∉ kv.1.data) :
    parseFieldLine (fieldLine kv) = some kv := by
  show parseFieldLine (' ' :: ' ' :: (kv.1.data ++ '=' :: kv.2.data)) = some kv
  simp only [parseFieldLine, and_self, if_true]
  rw [splitEq_append kv.1.data kv.2.data hk]
  rfl

lemma parseAux_fields : ∀ (e : Record), (∀ kv ∈ e, '=' ∉ kv.1.data) →
    ∀ (cur : Record) (rest : List (List Char)),
      parseAux (some cur) (e.map fieldLine ++ rest) = parseAux (some (cur ++ e)) rest := by
  intro e
  induction e with
  | nil => intro _ cur rest; simp
  | cons kv e ih =>
    intro hwf cur rest
    simp only [List.map_cons, List.cons_append, parseAux,
               if_neg (fieldLine_ne_marker kv)]
    rw [parseFieldLine_fieldLine kv (hwf kv (List.mem_cons_self _ _))]
    show parseAux (some (cur ++ [kv])) (e.map fieldLine ++ rest) =
      parseAux (some (cur ++ kv :: e)) rest
    rw [ih (fun x hx => hwf x (List.mem_cons_of_mem kv hx)) (cur ++ [kv]) rest,
        List.append_assoc]
    rfl

lemma dbLines_cons (e : Record) (db : List Record) :
    dbLines (e :: db) = markerLine :: (e.map fieldLine ++ dbLines db) := by
  simp [dbLines, entryBlock]

lemma parseAux_dbLines : ∀ db : List Record, (∀ e ∈ db, ∀ kv ∈ e, '=' ∉ kv.1.data) →
    ∀ cur : Record, parseAux (some cur) (dbLines db) = cur :: db := by
  intro db
  induction db with
  | nil => intro _ cur; rfl
  | cons e db ih =>
    intro hwf cur
    rw [dbLines_cons]
    simp only [parseAux, if_pos rfl]
    rw [parseAux_fields e (hwf e (List.mem_cons_self _ _)) [] (dbLines db)]
    simp only [if_true, List.nil_append]
    rw [ih (fun x hx => hwf x (List.mem_cons_of_mem e hx)) e]

lemma dbLines_no_newline (db : List Record) (hwf : wfDB db) :
    ∀ l ∈ dbLines db, '\n' ∉ l := by
  induction db with
  | nil => intro l hl; cases hl
  | cons e db ih =>
    intro l hl
    rw [dbLines_cons] at hl
    rcases List.mem_cons.mp hl with rfl | hmem
    · decide
    · rcases List.mem_append.mp hmem with hfield | hrest
      · obtain ⟨kv, hkv, rfl⟩ := List.mem_map.mp hfield
        obtain ⟨hnk, -, hnv⟩ := hwf e (List.mem_cons_self _ _) kv hkv
        show ¬ '\n' ∈ ' ' :: ' ' :: (kv.1.data ++ '=' :: kv.2.data)
        intro hbad
        rcases List.mem_cons.mp hbad with h | hbad
        · cases h
        rcases List.mem_cons.mp hbad with h | hbad
        · cases h
        rcases List.mem_append.mp hbad with h | hbad
        · exact hnk h
        rcases List.mem_cons.mp hbad with h | h
        · cases h
        · exact hnv h
      · exact ih (fun x hx => hwf x (List.mem_cons_of_mem e hx)) l hrest

lemma bib_loads_render (db : List Record) (hwf : wfDB db) :
    bib_loads (String.mk (joinLines (dbLines db))) = db := by
  cases db with
  | nil => rfl
  | cons e db =>
    show parseAux none (splitLines (joinLines (dbLines (e :: db)))) = e :: db
    rw [splitLines_joinLines (dbLines (e :: db)) (dbLines_no_newline (e :: db) hwf)
        (by rw [dbLines_cons]; simp)]
    rw [dbLines_cons]
    simp only [parseAux, if_pos rfl]
    rw [parseAux_fields e (fun kv hkv => (hwf e (List.mem_cons_self _ _) kv hkv).2.1)
        [] (dbLines db)]
    exact parseAux_dbLines db
      (fun x hx kv hkv => (hwf x (List.mem_cons_of_mem e hx) kv hkv).2.1) e

/-! Lemmas about the canonical entry order. -/

lemma keyLE_trans (a b c : String × String) (h1 : keyLE a b = true) (h2 : keyLE b c = true) :
    keyLE a c = true := by
  unfold keyLE at *
  simp only [Bool.or_eq_true, Bool.and_eq_true, decide_eq_true_eq, beq_iff_eq] at *
  rcases h1 with h1 | ⟨h1a, h1b⟩
  · rcases h2 with h2 | ⟨h2a, h2b⟩
    · exact Or.inl (lt_trans h1 h2)
    · exact Or.inl (h2a ▸ h1)
  · rcases h2 with h2 | ⟨h2a, h2b⟩
    · exact Or.inl (h1a ▸ h2)
    · exact Or.inr ⟨h1a.trans h2a, le_trans h1b h2b⟩

lemma keyLE_total (a b : String × String) : keyLE a b = true ∨ keyLE b a = true := by
  unfold keyLE
  simp only [Bool.or_eq_true, Bool.and_eq_true, decide_eq_true_eq, beq_iff_eq]
  rcases lt_trichotomy a.1 b.1 with h | h | h
  · exact Or.inl (Or.inl h)
  · rcases le_total a.2 b.2 with h2 | h2
    · exact Or.inl (Or.inr ⟨h, h2⟩)
    · exact Or.inr (Or.inr ⟨h.symm, h2⟩)
  · exact Or.inr (Or.inl h)

lemma mem_insertEntry (a e : Record) : ∀ l, a ∈ insertEntry e l ↔ a = e ∨ a ∈ l := by
  intro l
  induction l with
  | nil => simp [insertEntry]
  | cons y ys ih =>
    unfold insertEntry
    split_ifs with h1
    · simp
    · simp only [List.mem_cons, ih]
      tauto

lemma pairwise_insertEntry (e : Record) :
    ∀ l, l.Pairwise (fun a b => keyLE (entryKey a) (entryKey b) = true) →
      (insertEntry e l).Pairwise (fun a b => keyLE (entryKey a) (entryKey b) = true) := by
  intro l
  induction l with
  | nil => intro _; simp [insertEntry]
  | cons y ys ih =>
    intro hp
    rw [List.pairwise_cons] at hp
    obtain ⟨hy, hys⟩ := hp
    unfold insertEntry
    split_ifs with h1
    · rw [List.pairwise_cons]
      refine ⟨fun b hb => ?_, by rw [List.pairwise_cons]; exact ⟨hy, hys⟩⟩
      rcases List.mem_cons.mp hb with rfl | hb'
      · exact h1
      · exact keyLE_trans _ _ _ h1 (hy b hb')
    · have hye : keyLE (entryKey y) (entryKey e) = true :=
        (keyLE_total (entryKey e) (entryKey y)).resolve_left h1
      rw [List.pairwise_cons]
      refine ⟨fun b hb => ?_, ih hys⟩
      rcases (mem_insertEntry b e ys).mp hb with rfl | hb'
      · exact hye
      · exact hy b hb'

lemma sortEntries_pairwise (db : List Record) :
    (sortEntries db).Pairwise (fun a b => keyLE (entryKey a) (entryKey b) = true) := by
  induction db with
  | nil => simp [sortEntries]
  | cons e db ih => exact pairwise_insertEntry e _ ih

lemma sortEntries_of_pairwise :
    ∀ l : List Record, l.Pairwise (fun a b => keyLE (entryKey a) (entryKey b) = true) →
      sortEntries l = l := by
  intro l
  induction l with
  | nil => intro _; rfl
  | cons e l ih =>
    intro hp
    rw [List.pairwise_cons] at hp
    obtain ⟨he, hl⟩ := hp
    show insertEntry e (sortEntries l) = e :: l
    rw [ih hl]
    cases l with
    | nil => rfl
    | cons y ys =>
      unfold insertEntry
      rw [if_pos (he y (List.mem_cons_self _ _))]

lemma sortEntries_idem (db : List Record) : sortEntries (sortEntries db) = sortEntries db :=
  sortEntries_of_pairwise _ (sortEntries_pairwise db)

lemma mem_sortEntries (a : Record) : ∀ db, a ∈ sortEntries db ↔ a ∈ db := by
  intro db
  induction db with
  | nil => simp [sortEntries]
  | cons e db ih =>
    show a ∈ insertEntry e (sortEntries db) ↔ _
    rw [mem_insertEntry a e (sortEntries db)]
    simp [ih]

lemma wfDB_sortEntries (db : List Record) (h : wfDB db) : wfDB (sortEntries db) :=
  fun e he => h e ((mem_sortEntries e db).mp he)

/-! Every database the modelled parser returns is well-formed. -/

lemma parseFieldLine_wf (l : List Char) (kv : String × String) (hl : '\n' ∉ l)
    (h : parseFieldLine l = some kv) :
    '\n' ∉ kv.1.data ∧ '=' ∉ kv.1.data ∧ '\n' ∉ kv.2.data := by
  obtain ⟨kv1, kv2⟩ := kv
  cases l with
  | nil => cases h
  | cons c1 t1 =>
    cases t1 with
    | nil => cases h
    | cons c2 body =>
      simp only [parseFieldLine] at h
      split_ifs at h
      rw [Option.map_eq_some'] at h
      obtain ⟨p, hp, hf⟩ := h
      have hbody : ∀ x, x ∈ body → x ∈ c1 :: c2 :: body :=
        fun x hm => List.mem_cons_of_mem c1 (List.mem_cons_of_mem c2 hm)
      have heq := splitEq_eq body p.1 p.2 hp
      have hkey := splitEq_key body p.1 p.2 hp
      injection hf with hf1 hf2
      subst hf1
      subst hf2
      refine ⟨?_, hkey, ?_⟩
      · intro hmem
        exact hl (hbody _ (heq ▸ List.mem_append_left _ hmem))
      · intro hmem
        exact hl (hbody _ (heq ▸ List.mem_append_right _ (List.mem_cons_of_mem '=' hmem)))

lemma wfEntry_nil : wfEntry [] :=
  fun kv hkv => absurd hkv (List.not_mem_nil kv)

lemma wfEntry_of_some : ∀ st : Option Record, wfEntry (st.getD []) →
    ∀ cur, st = some cur → wfEntry cur := by
  rintro st hw cur rfl
  exact hw

lemma parseAux_wf : ∀ lines : List (List Char), (∀ l ∈ lines, '\n' ∉ l) →
    ∀ st : Option Record, (∀ cur, st = some cur → wfEntry cur) →
      wfDB (parseAux st lines) := by
  intro lines
  induction lines with
  | nil =>
    intro _ st hst
    cases st with
    | none => intro e he; cases he
    | some cur =>
      intro e he
      rcases List.mem_singleton.mp he with rfl
      exact hst e rfl
  | cons l rest ih =>
    intro hl st hst
    have hrest : ∀ x ∈ rest, '\n' ∉ x := fun x hx => hl x (List.mem_cons_of_mem l hx)
    have hnil : ∀ cur : Record, some [] = some cur → wfEntry cur :=
      wfEntry_of_some (some ([] : Record)) wfEntry_nil
    cases st with
    | none =>
      simp only [parseAux]
      split_ifs with hm
      · exact ih hrest (some []) hnil
      · exact ih hrest none (by rintro cur hcur; cases hcur)
    | some cur =>
      simp only [parseAux]
      split_ifs with hm
      · intro e he
        rcases List.mem_cons.mp he with rfl | hmem
        · exact hst e rfl
        · exact ih hrest (some []) hnil e hmem
      · cases hpf : parseFieldLine l with
        | none =>
          exact ih hrest (some cur) hst
        | some kv =>
          refine ih hrest (some (cur ++ [kv]))
            (wfEntry_of_some (some (cur ++ [kv])) ?_)
          intro kv' hkv'
          rcases List.mem_append.mp hkv' with hmem | hmem
          · exact hst cur rfl kv' hmem
          · rcases List.mem_singleton.mp hmem with rfl
            exact parseFieldLine_wf l kv' (hl l (List.mem_cons_self _ _)) hpf

lemma wfDB_bib_loads (x : String) : wfDB (bib_loads x) :=
  parseAux_wf (splitLines x.data) (splitLines_no_newline x.data) none
    (by rintro cur hcur; cases hcur)

/-- C9 (spec-modelled): `bibtexparser` — the parse/serialize boundary — is
external to the repository and declared a black box by the spec; it is
modelled here by `bib_loads`/`write_bib` over the canonical format the
spec describes (entries in the writer's canonical order under
`order_entries_by = ('noneyear', "author")`, fixed two-space indentation).
For every input `x`, `write(parse(write(parse(x))))` is byte-identical to
`write(parse(x))` — canonicalization is idempotent after one pass — and
the collection `load_bib` returns re-serializes exactly to the content it
just persisted on disk. -/
theorem C9_roundtrip (x : String) :
    write_bib (bib_loads (write_bib (bib_loads x))) = write_bib (bib_loads x) ∧
    write_bib ((load_bib x).2) = (load_bib x).1 := by
  have hkey : bib_loads (write_bib (bib_loads x)) = sortEntries (bib_loads x) :=
    bib_loads_render (sortEntries (bib_loads x))
      (wfDB_sortEntries (bib_loads x) (wfDB_bib_loads x))
  have hmain : write_bib (bib_loads (write_bib (bib_loads x))) = write_bib (bib_loads x) := by
    rw [hkey]
    show String.mk (joinLines (dbLines (sortEntries (sortEntries (bib_loads x))))) = _
    rw [sortEntries_idem]
    rfl
  exact ⟨hmain, hmain⟩

end DL4M
